import Mathlib

/-!
Verification development for the RSI-Localization/i18n version-stamping
scripts (`scripts/generate_versions.py`, `scripts/validate_json.py`,
`scripts/vaildate_json.py`).

The Python code is shallowly embedded: Python JSON-shaped values become the
`PyVal` inductive, Python exceptions become `Except PyErr`, Python strings
are Lean `String`s manipulated through their character lists (Python's
`str` indexing/slicing is by code point, as is `String.data`), and the
SHA-256 digest is abstracted as a parameter `H : List Char → String`
applied to the exact byte stream the code feeds into `hashlib.sha256`
(every claim below is insensitive to the choice of `H`, or is quantified
over it).  File contents are abstracted by their content digests, since the
scripts only ever consume a file's bytes through `_calculate_file_hash`.
-/

/-- Python exception classes that the embedded code can raise or catch. -/
inductive PyErr where
  | keyError
  | attributeError
  | typeError
  | indexError
  | valueError
deriving DecidableEq, Repr

mutual
/-- A Python / JSON-shaped value: `None`, `int`, `str`, `list` or `dict`
(dicts keep insertion order, as Python dicts do). -/
inductive PyVal : Type where
  | pyNone : PyVal
  | pyInt : Int → PyVal
  | pyStr : String → PyVal
  | pyList : PyListV → PyVal
  | pyDict : PyFields → PyVal
deriving DecidableEq, Repr

/-- The elements of a Python list, in order. -/
inductive PyListV : Type where
  | nil : PyListV
  | cons : PyVal → PyListV → PyListV
deriving DecidableEq, Repr

/-- The fields of a Python dict, in insertion order. -/
inductive PyFields : Type where
  | fnil : PyFields
  | fcons : String → PyVal → PyFields → PyFields
deriving DecidableEq, Repr
end

namespace PyFields

/-- Dict lookup: the value bound to `key`, if present.  Keys are unique in
every dict the embedded code builds, so first match is the match. -/
def lookupKey : PyFields → String → Option PyVal
  | .fnil, _ => none
  | .fcons k v t, key => if k = key then some v else t.lookupKey key

/-- Python `key in dict`. -/
def hasKey (fs : PyFields) (k : String) : Bool := (fs.lookupKey k).isSome

/-- Python `dict[key] = v`: overwrite in place if the key exists, else
append, preserving insertion order. -/
def setKey : PyFields → String → PyVal → PyFields
  | .fnil, k, v => .fcons k v .fnil
  | .fcons k' v' t, k, v =>
      if k' = k then .fcons k v t else .fcons k' v' (t.setKey k v)

/-- The dict's keys in insertion order. -/
def keys : PyFields → List String
  | .fnil => []
  | .fcons k _ t => k :: t.keys

/-- Python truthiness of a dict: nonempty. -/
def hasAny : PyFields → Bool
  | .fnil => false
  | .fcons _ _ _ => true

/-- The fields as an association list, in insertion order. -/
def toList : PyFields → List (String × PyVal)
  | .fnil => []
  | .fcons k v t => (k, v) :: t.toList

end PyFields

namespace PyListV

/-- Append one element at the end (Python `list.append`). -/
def push : PyListV → PyVal → PyListV
  | .nil, v => .cons v .nil
  | .cons x t, v => .cons x (t.push v)

end PyListV

/-- Python truthiness. -/
def PyVal.truthy : PyVal → Bool
  | .pyNone => false
  | .pyInt n => decide (n ≠ 0)
  | .pyStr s => decide (s.data ≠ [])
  | .pyList .nil => false
  | .pyList (.cons _ _) => true
  | .pyDict .fnil => false
  | .pyDict (.fcons _ _ _) => true

/-- Python subscription `v[k]` with a string key: dicts look the key up
(`KeyError` when missing); every other value raises `TypeError`. -/
def pySubscript (v : PyVal) (k : String) : Except PyErr PyVal :=
  match v with
  | .pyDict fs =>
      match fs.lookupKey k with
      | some x => .ok x
      | none => .error .keyError
  | _ => .error .typeError

/-- Python `v.get(k)`: only dicts have a `get` method (`AttributeError`
otherwise); a missing key yields `None`. -/
def pyGet (v : PyVal) (k : String) : Except PyErr PyVal :=
  match v with
  | .pyDict fs => .ok ((fs.lookupKey k).getD .pyNone)
  | _ => .error .attributeError

/-- Python `v.get(k, d)` with an explicit default. -/
def pyGetD (v : PyVal) (k : String) (d : PyVal) : Except PyErr PyVal :=
  match v with
  | .pyDict fs => .ok ((fs.lookupKey k).getD d)
  | _ => .error .attributeError

/-- Whether a Python list contains a given string (Python `==` between a
string and any non-string value is `False`). -/
def strMem : PyListV → String → Bool
  | .nil, _ => false
  | .cons (.pyStr s) t, k => s == k || strMem t k
  | .cons _ t, k => strMem t k

/-- Contiguous-substring test on character lists (Python `sub in s`). -/
def infixOfB (needle : List Char) : List Char → Bool
  | [] => needle.isEmpty
  | h :: t => needle.isPrefixOf (h :: t) || infixOfB needle t

/-- Python `k in v` for a string `k`: key membership for dicts, element
membership for lists, substring test for strings, `TypeError` otherwise. -/
def pyContains (v : PyVal) (k : String) : Except PyErr Bool :=
  match v with
  | .pyDict fs => .ok (fs.hasKey k)
  | .pyList xs => .ok (strMem xs k)
  | .pyStr s => .ok (infixOfB k.data s.data)
  | _ => .error .typeError

/-- Python `s.split(sep)` for a single-character separator, on character
lists: `"".split('.') = ['']`, `"a..b".split('.') = ["a","","b"]`. -/
def splitChar (sep : Char) : List Char → List (List Char)
  | [] => [[]]
  | c :: cs =>
      match splitChar sep cs with
      | [] => [[c]]
      | r :: rs => if c = sep then [] :: r :: rs else (c :: r) :: rs

/-- Python `s.split(sep)` on strings. -/
def pySplit (sep : Char) (s : String) : List String :=
  (splitChar sep s.data).map fun cs => String.mk cs

/-- Python `s[:8]`: the first eight characters. -/
def take8 (s : String) : String := String.mk (s.data.take 8)

/-- `VersionManager.generate_file_version` (generate_versions.py lines
100-116): if `previous_version` is truthy and the part of it after its last
`'.'` (Python `previous_version.split('.')[-1]`) equals the first eight
characters of `file_hash`, return it unchanged; otherwise mint
`f"{timestamp}.{file_hash[:8]}"`.  `timestamp` is
`datetime.utcnow().strftime('%Y%m%d')`, passed in as `today`. -/
def generate_file_version (today : String) (file_hash : String)
    (previous_version : Option String) : String :=
  let minted : String := String.mk (today.data ++ '.' :: file_hash.data.take 8)
  match previous_version with
  | none => minted
  | some pv =>
      if pv.data = [] then minted
      else if (splitChar '.' pv.data).getLastD [] = file_hash.data.take 8 then pv
      else minted

/-- `generate_file_version` applied to an arbitrary Python value for
`previous_version` (as `_process_service` does with
`previous_service_info.get("version")`): a truthy non-string raises
`AttributeError` at `.split`; a falsy value of any type mints afresh. -/
def generate_file_version_py (today file_hash : String) (pv : PyVal) :
    Except PyErr String :=
  match pv with
  | .pyStr s => .ok (generate_file_version today file_hash (some s))
  | v =>
      if v.truthy then .error .attributeError
      else .ok (generate_file_version today file_hash none)

/-- Python `parts[parts.index(seg) + 1]`: `ValueError` if `seg` is absent
(`list.index`), `IndexError` if `seg` is the final element. -/
def segmentAfter : List String → String → Except PyErr String
  | [], _ => .error .valueError
  | p :: rest, seg =>
      if p = seg then
        match rest with
        | q :: _ => .ok q
        | [] => .error .indexError
      else segmentAfter rest seg

/-- Python exception propagation: evaluate the next expression only when
the previous one did not raise. -/
def exBind (x : Except PyErr PyVal) (f : PyVal → Except PyErr PyVal) :
    Except PyErr PyVal :=
  match x with
  | .error e => .error e
  | .ok v => f v

/-- Propagation for a string-producing step. -/
def exBindS (x : Except PyErr String) (f : String → Except PyErr PyVal) :
    Except PyErr PyVal :=
  match x with
  | .error e => .error e
  | .ok v => f v

/-- The body of the `try` block in
`VersionManager._get_previous_file_info` (generate_versions.py lines
84-95): resolve `previous_versions["languages"][lang][service]`, then
branch on which grouping segment the slash-separated path contains. -/
def previousLookupTry (prev : PyVal) (lang service file_path : String) :
    Except PyErr PyVal :=
  let path_parts := pySplit '/' file_path
  exBind (pySubscript prev "languages") fun a =>
  exBind (pySubscript a lang) fun b =>
  exBind (pySubscript b service) fun versions =>
  if path_parts.contains "common" then
    exBind (pySubscript versions "common") fun c =>
    exBind (pySubscript c "files") fun fs =>
    pyGet fs file_path
  else if path_parts.contains "modules" then
    exBindS (segmentAfter path_parts "modules") fun module_name =>
    exBind (pySubscript versions "modules") fun m =>
    exBind (pySubscript m module_name) fun mu =>
    exBind (pySubscript mu "files") fun fs =>
    pyGet fs file_path
  else if path_parts.contains "standalone" && service == "website" then
    exBindS (segmentAfter path_parts "standalone") fun standalone_name =>
    exBind (pySubscript versions "standalone") fun st =>
    exBind (pySubscript st standalone_name) fun su =>
    exBind (pySubscript su "files") fun fs =>
    pyGet fs file_path
  else
    .ok .pyNone

/-- `VersionManager._get_previous_file_info` (generate_versions.py lines
70-98): return `None` when there is no previous data or no `"languages"`
key; run the lookup body and catch exactly `KeyError` and
`AttributeError`, turning them into `None`.  Any other exception (for
example `TypeError` from subscripting a non-dict) escapes. -/
def get_previous_file_info (prev : PyVal) (lang service file_path : String) :
    Except PyErr PyVal :=
  if ¬ prev.truthy then .ok .pyNone
  else
    match pyContains prev "languages" with
    | .error e => .error e
    | .ok b =>
      if ¬ b then .ok .pyNone
      else
        match previousLookupTry prev lang service file_path with
        | .ok v => .ok v
        | .error .keyError => .ok .pyNone
        | .error .attributeError => .ok .pyNone
        | .error e => .error e

/-- Strict lexicographic order on character lists by code point, as Python
compares strings.  A proper lead is a smaller string. -/
def strLtB : List Char → List Char → Bool
  | [], [] => false
  | [], _ :: _ => true
  | _ :: _, [] => false
  | a :: as, b :: bs => if a = b then strLtB as bs else decide (a.toNat < b.toNat)

/-- Insert a keyed pair into a list sorted ascending by key, after every
strictly smaller key. -/
def keyInsert {α : Type} (p : String × α) : List (String × α) → List (String × α)
  | [] => [p]
  | q :: qs => if strLtB q.1.data p.1.data then q :: keyInsert p qs else p :: q :: qs

/-- Python `sorted(d.items())`: insertion sort ascending by key.  Every
dict the code sorts has pairwise distinct keys, so only keys decide the
order, exactly as tuple comparison does in the source. -/
def sortByKey {α : Type} : List (String × α) → List (String × α)
  | [] => []
  | p :: ps => keyInsert p (sortByKey ps)

/-- Sequence the already-computed contributions of sorted dict items in
order, concatenating the byte streams; the first exception wins, as it
does in the Python `for` loop. -/
def exceptConcat (l : List (String × Except PyErr (List Char))) :
    Except PyErr (List Char) :=
  l.foldl
    (fun acc kv =>
      match acc with
      | .error e => .error e
      | .ok xs =>
          match kv.2 with
          | .error e => .error e
          | .ok ys => .ok (xs ++ ys))
    (.ok [])

/-- The bytes `file_info["hash"].encode()` contributes to the service
hash: `TypeError` if `file_info` is not subscriptable, `KeyError` if
`"hash"` is missing, `AttributeError` (no `.encode`) if the value is not a
string. -/
def fileHashContrib (fi : PyVal) : Except PyErr (List Char) :=
  match pySubscript fi "hash" with
  | .error e => .error e
  | .ok (.pyStr s) => .ok s.data
  | .ok _ => .error .attributeError

/-- The `key == "files"` branch of `add_files_to_hash`
(generate_versions.py lines 187-189): iterate `sorted(value.items())` and
feed each `file_info["hash"]` into the hasher.  `sorted(value.items())` on
a non-dict raises `AttributeError`. -/
def filesContrib (v : PyVal) : Except PyErr (List Char) :=
  match v with
  | .pyDict fs =>
      exceptConcat (sortByKey (fs.toList.map fun kv => (kv.1, fileHashContrib kv.2)))
  | _ => .error .attributeError

mutual
/-- The byte stream `add_files_to_hash` (generate_versions.py lines
184-193) feeds into the SHA-256 hasher: recurse through nested dicts in
sorted key order, folding in only the `"hash"` strings found under
`"files"` keys; non-dict values contribute nothing. -/
def addFilesToHash : PyVal → Except PyErr (List Char)
  | .pyDict fs => exceptConcat (sortByKey (entryContribs fs))
  | _ => .ok []

/-- The contribution of each dict item, keyed so the sorted iteration
order of the source loop can be reproduced. -/
def entryContribs : PyFields → List (String × Except PyErr (List Char))
  | .fnil => []
  | .fcons k v t =>
      (k, if k = "files" then filesContrib v else addFilesToHash v) :: entryContribs t
end

/-- `VersionManager._calculate_service_hash` (generate_versions.py lines
173-194): the hex digest of the accumulated byte stream.  The SHA-256
hex-digest function is abstracted as `H`; every theorem below holds for
every `H` or fixes a concrete one. -/
def calculate_service_hash (H : List Char → String) (service_data : PyVal) :
    Except PyErr String :=
  match addFilesToHash service_data with
  | .error e => .error e
  | .ok stream => .ok (H stream)

/-- A content file discovered by `os.walk` inside one unit directory:
its base name (the `.json` filter applies to it), the slash-separated
path `'/' + os.path.relpath(file, unit_root)` the code derives, and its
SHA-256 content digest (the only thing the code reads from the file). -/
structure SrcFile where
  fname : String
  rel : String
  digest : String
deriving DecidableEq, Repr

/-- One entry of `os.listdir` under a `modules` or `standalone`
directory: its name, whether it is a directory, and the files walked
inside it when it is. -/
structure SubDir where
  dname : String
  isDir : Bool
  files : List SrcFile
deriving DecidableEq, Repr

/-- The relevant on-disk content of one service directory: `none` for an
absent `common`/`modules`/`standalone` subdirectory, `some` with the
discovered entries otherwise. -/
structure ServiceDirs where
  common : Option (List SrcFile)
  modules : Option (List SubDir)
  standalone : Option (List SubDir)
deriving DecidableEq, Repr

/-- One entry of `os.listdir('languages')`: its name, whether it is a
directory, and, per recognized service, that service subdirectory's
content (`none` when the subdirectory does not exist). -/
structure LangDir where
  lname : String
  isDir : Bool
  website : Option ServiceDirs
  launcher : Option ServiceDirs
deriving DecidableEq, Repr

/-- The suffix `['.', 'j', 's', 'o', 'n']`. -/
def jsonExt : List Char := ['.', 'j', 's', 'o', 'n']

/-- The per-file `try` body of `VersionManager.process_directory`
(generate_versions.py lines 143-154): previous-entry lookup, then
`previous_info["version"] if previous_info else None`, then
`generate_file_version`; any exception is caught, a warning printed, and
the file skipped (`none`).  The resulting dict entry is
`FileInfo(version=..., hash=...).__dict__`. -/
def build_file_entry (prev : PyVal) (today lang service : String) (f : SrcFile) :
    Option PyVal :=
  match get_previous_file_info prev lang service f.rel with
  | .error _ => none
  | .ok info =>
      match (if info.truthy then pySubscript info "version" else .ok .pyNone) with
      | .error _ => none
      | .ok pv =>
          match generate_file_version_py today f.digest pv with
          | .error _ => none
          | .ok ver =>
              some (.pyDict (.fcons "version" (.pyStr ver)
                (.fcons "hash" (.pyStr f.digest) .fnil)))

/-- `VersionManager.process_directory` (generate_versions.py lines
118-158): walk the unit, skip files whose name does not end in `.json`,
and collect `files_data[rel_path] = {...}` in discovery order. -/
def process_directory (prev : PyVal) (today lang service : String)
    (files : List SrcFile) : PyFields :=
  files.foldl
    (fun acc f =>
      if jsonExt.isSuffixOf f.fname.data then
        match build_file_entry prev today lang service f with
        | some entry => acc.setKey f.rel entry
        | none => acc
      else acc)
    .fnil

/-- The dict `{"files": files}` stored for a unit that produced at least
one file (generate_versions.py lines 257, 268, 283). -/
def unitNode (fs : PyFields) : PyVal := .pyDict (.fcons "files" (.pyDict fs) .fnil)

/-- The `modules` / `standalone` loop of `_process_service`
(generate_versions.py lines 262-268 and 277-283): per `os.listdir` entry
that is a directory, process it and record `{name: {"files": files}}`
only when at least one file was found. -/
def buildUnitsStep (prev : PyVal) (today lang service : String)
    (acc : PyFields) (u : SubDir) : PyFields :=
  if u.isDir then
    let fs := process_directory prev today lang service u.files
    if fs.hasAny then acc.setKey u.dname (unitNode fs) else acc
  else acc

/-- See `buildUnitsStep`; the loop starts from the empty dict. -/
def buildUnits (prev : PyVal) (today lang service : String)
    (subs : List SubDir) : PyFields :=
  subs.foldl (buildUnitsStep prev today lang service) .fnil

/-- The group-collection stage of `_process_service`
(generate_versions.py lines 250-286): assemble the `common`, `modules`
and (`website` only) `standalone` entries of `service_data`, each set
only when it produced at least one file. -/
def serviceUnits (prev : PyVal) (today lang service : String)
    (dirs : ServiceDirs) : PyFields :=
  let d1 : PyFields :=
    match dirs.common with
    | some cfs =>
        let fs := process_directory prev today lang service cfs
        if fs.hasAny then PyFields.fnil.setKey "common" (unitNode fs)
        else .fnil
    | none => .fnil
  let d2 : PyFields :=
    match dirs.modules with
    | some subs =>
        let ms := buildUnits prev today lang service subs
        if ms.hasAny then d1.setKey "modules" (.pyDict ms) else d1
    | none => d1
  if service == "website" then
    match dirs.standalone with
    | some subs =>
        let ss := buildUnits prev today lang service subs
        if ss.hasAny then d2.setKey "standalone" (.pyDict ss) else d2
    | none => d2
  else d2

/-- `VersionManager._process_service` (generate_versions.py lines
235-300).  Returns `.ok .pyNone` when the service directory is absent;
otherwise assembles `common` / `modules` / (`website` only) `standalone`
groups, each omitted when empty, and, when anything was collected,
appends the service `hash` and `version` (continuity compared against
`previous_versions.get("languages", {}).get(lang, {}).get(service,
{}).get("version")`).  Exceptions escaping this function are caught by the
caller, which skips the service. -/
def process_service (H : List Char → String) (prev : PyVal)
    (today lang service : String) (sd : Option ServiceDirs) :
    Except PyErr PyVal :=
  match sd with
  | none => .ok .pyNone
  | some dirs =>
      let d3 : PyFields := serviceUnits prev today lang service dirs
      if d3.hasAny then
        match calculate_service_hash H (.pyDict d3) with
        | .error e => .error e
        | .ok service_hash =>
            let prevInfo : Except PyErr PyVal :=
              if prev.truthy then do
                let a ← pyGetD prev "languages" (.pyDict .fnil)
                let b ← pyGetD a lang (.pyDict .fnil)
                pyGetD b service (.pyDict .fnil)
              else .ok (.pyDict .fnil)
            match prevInfo with
            | .error e => .error e
            | .ok pinfo =>
                match pyGet pinfo "version" with
                | .error e => .error e
                | .ok pver =>
                    match generate_file_version_py today service_hash pver with
                    | .error e => .error e
                    | .ok ver =>
                        .ok (.pyDict ((d3.setKey "hash" (.pyStr service_hash)).setKey
                          "version" (.pyStr ver)))
      else .ok (.pyDict d3)

/-- The per-language service loop of `generate_versions`
(generate_versions.py lines 224-231): for each of
`SUPPORTED_SERVICES = ["website", "launcher"]`, record the service data
when it is truthy; a raised exception prints a warning and skips the
service. -/
def serviceStep (H : List Char → String) (prev : PyVal) (today lang : String)
    (acc : PyFields) (sv : String × Option ServiceDirs) : PyFields :=
  match process_service H prev today lang sv.1 sv.2 with
  | .error _ => acc
  | .ok v => if v.truthy then acc.setKey sv.1 v else acc

/-- See `serviceStep`; the language dict starts empty. -/
def serviceFields (H : List Char → String) (prev : PyVal) (today : String)
    (ld : LangDir) : PyFields :=
  [("website", ld.website), ("launcher", ld.launcher)].foldl
    (serviceStep H prev today ld.lname) .fnil

/-- The per-language step of the `generate_versions` loop
(generate_versions.py lines 216-231): skip non-directories, else append
the language to `supportedLanguages` and record its (possibly empty)
service dict. -/
def langStep (H : List Char → String) (prev : PyVal) (today : String)
    (acc : PyFields × PyListV) (ld : LangDir) : PyFields × PyListV :=
  if ld.isDir then
    (acc.1.setKey ld.lname (.pyDict (serviceFields H prev today ld)),
     acc.2.push (.pyStr ld.lname))
  else acc

/-- `VersionManager.generate_versions` (generate_versions.py lines
196-233).  `genStamp` stands for `datetime.utcnow().isoformat()` and
`today` for the `%Y%m%d` stamp used by `generate_file_version`; `root` is
`none` when the `languages` directory does not exist, else the `os.listdir`
entries.  Non-directory entries are skipped; each directory entry is
appended to `meta.supportedLanguages` and recorded under `languages`
before its services are processed. -/
def generate_versions (H : List Char → String) (genStamp today : String)
    (prev : PyVal) (root : Option (List LangDir)) : PyVal :=
  let assemble : PyFields → PyListV → PyVal := fun langs supported =>
    .pyDict (.fcons "generated" (.pyStr genStamp)
      (.fcons "languages" (.pyDict langs)
        (.fcons "meta" (.pyDict
          (.fcons "supportedLanguages" (.pyList supported)
            (.fcons "defaultLanguage" (.pyStr "en")
              (.fcons "services" (.pyList (.cons (.pyStr "website")
                (.cons (.pyStr "launcher") .nil))) .fnil)))) .fnil)))
  match root with
  | none => assemble .fnil .nil
  | some entries =>
      let acc := entries.foldl (langStep H prev today) (.fnil, .nil)
      assemble acc.1 acc.2

/-- Follow a chain of dict keys into a snapshot (a proof-side probe, not
part of the source). -/
def pyGetPath : PyVal → List String → Option PyVal
  | v, [] => some v
  | .pyDict fs, k :: ks =>
      match fs.lookupKey k with
      | some v => pyGetPath v ks
      | none => none
  | _, _ => none

/-- One observable file-system action of `VersionManager.save_versions`
(generate_versions.py lines 302-315) on `versions.json`:
`open(VERSION_FILE, 'w', ...)` truncates the target in place, then
`json.dump` streams pieces of the serialized text into it. -/
inductive FsOp where
  | truncateTarget : FsOp
  | writeChunk : List Char → FsOp
deriving DecidableEq, Repr

/-- The action trace of `save_versions` for a given serialized text: the
code opens `versions.json` itself with mode `'w'` and streams into it;
no temporary file and no rename appear anywhere in the source. -/
def save_versions_ops (serialized : List Char) : List FsOp :=
  FsOp.truncateTarget :: serialized.map (fun c => FsOp.writeChunk [c])

/-- Replay a trace of actions against the current content of
`versions.json` (`none` = file absent).  A crash partway through the save
is replaying only a front segment of the trace. -/
def runFsOps (content : Option (List Char)) : List FsOp → Option (List Char)
  | [] => content
  | .truncateTarget :: rest => runFsOps (some []) rest
  | .writeChunk d :: rest => runFsOps (some (content.getD [] ++ d)) rest

/-- Outcome of validating one file, abstracting
`validate_json_file`'s file-system access: `(is_valid, error_messages)`. -/
def FileCheck := String → Bool × List String

/-- The result record the validators build. -/
structure VReport where
  has_errors : Bool
  resultFiles : List (String × Bool)
  total : Nat
  passed : Nat
  failed : Nat
  skippedCount : Nat
deriving DecidableEq, Repr

/-- Python `list(set(filter(None, files)))`: drop empty strings and
duplicates (the set's enumeration order is immaterial because both
validators sort before iterating). -/
def dedupNonempty (files : List String) : List String :=
  (files.filter (fun f => f.data ≠ [])).dedup

/-- Insert a string into an ascending list (Python `sorted`). -/
def strInsert (s : String) : List String → List String
  | [] => [s]
  | q :: qs => if strLtB q.data s.data then q :: strInsert s qs else s :: q :: qs

/-- Python `sorted` on a list of strings. -/
def sortStrs : List String → List String
  | [] => []
  | s :: ss => strInsert s (sortStrs ss)

/-- `Path(file_path).suffix.lower()` == '.json'`: the extension of the
final slash-separated component, lowercased; a dot that is first or last
in the component yields no extension, as in `pathlib`. -/
def isJsonName (p : String) : Bool :=
  let base := (splitChar '/' p.data).getLastD []
  let ext := base.reverse.takeWhile (fun c => c ≠ '.')
  if ext.length = base.length then false
  else if ext.length = 0 then false
  else if ext.length + 1 = base.length then false
  else ('.' :: ext.reverse).map Char.toLower == jsonExt

/-- The shared per-file accumulation step of both `validate_files`
loops: count and record a pass or a failure and latch `has_errors`. -/
def vStep (V : FileCheck) (acc : VReport) (f : String) : VReport :=
  if (V f).1 then
    ⟨acc.has_errors, acc.resultFiles ++ [(f, true)], acc.total,
     acc.passed + 1, acc.failed, acc.skippedCount⟩
  else
    ⟨true, acc.resultFiles ++ [(f, false)], acc.total,
     acc.passed, acc.failed + 1, acc.skippedCount⟩

/-- `JsonValidator.validate_files` of scripts/vaildate_json.py (lines
42-98): dedup and drop empties, early-return zeros on an empty list, else
validate each file in sorted order.  `summary.total` is the number of
deduplicated files; this validator has no `skipped` count. -/
def validate_files_seq (V : FileCheck) (files : List String) : VReport :=
  let fs := dedupNonempty files
  if fs.isEmpty then ⟨false, [], 0, 0, 0, 0⟩
  else
    (sortStrs fs).foldl (vStep V) ⟨false, [], fs.length, 0, 0, 0⟩

/-- `JsonValidator.validate_files` of scripts/validate_json.py (lines
110-180): dedup and drop empties, early-return zeros on an empty list,
filter to `.json` names (the rest are only counted as `skipped`), and
validate the survivors.  The thread pool completes futures in an
arbitrary order; the counts and the latched `has_errors` are
order-independent, so the sorted submission order is used here. -/
def validate_files_par (V : FileCheck) (files : List String) : VReport :=
  let fs := dedupNonempty files
  if fs.isEmpty then ⟨false, [], 0, 0, 0, 0⟩
  else
    let json_files := fs.filter isJsonName
    (sortStrs json_files).foldl (vStep V)
      ⟨false, [], json_files.length, 0, 0, fs.length - json_files.length⟩

/-- Rewrite the value bound to `"version"` in one file-info dict to
`σ path oldValue`; everything else is untouched. -/
def mvsProps (σ : String → PyVal → PyVal) (path : String) : PyFields → PyFields
  | .fnil => .fnil
  | .fcons k v t =>
      .fcons k (if k = "version" then σ path v else v) (mvsProps σ path t)

/-- Rewrite the `"version"` binding of a file-info value; non-dicts are
untouched. -/
def mvsInfo (σ : String → PyVal → PyVal) (path : String) : PyVal → PyVal
  | .pyDict props => .pyDict (mvsProps σ path props)
  | v => v

/-- Apply the per-file rewrite across the entries of a `"files"` dict. -/
def mvsEntries (σ : String → PyVal → PyVal) : PyFields → PyFields
  | .fnil => .fnil
  | .fcons path fi t => .fcons path (mvsInfo σ path fi) (mvsEntries σ t)

/-- Apply the per-file rewrite to a `"files"` value; non-dicts are
untouched. -/
def mvsFiles (σ : String → PyVal → PyVal) : PyVal → PyVal
  | .pyDict fs => .pyDict (mvsEntries σ fs)
  | v => v

mutual
/-- Change identifier (`"version"`) strings of file records everywhere in
a service-data tree, leaving every `"hash"` digest and the dict skeleton
intact: the mirror image of the recursion in `add_files_to_hash`. -/
def mvs (σ : String → PyVal → PyVal) : PyVal → PyVal
  | .pyDict fs => .pyDict (mvsFields σ fs)
  | v => v

/-- Entrywise version rewrite under a dict. -/
def mvsFields (σ : String → PyVal → PyVal) : PyFields → PyFields
  | .fnil => .fnil
  | .fcons k v t =>
      .fcons k (if k = "files" then mvsFiles σ v else mvs σ v) (mvsFields σ t)
end

theorem lookupKey_mvsProps (σ : String → PyVal → PyVal) (path k : String)
    (hk : k ≠ "version") : ∀ props : PyFields,
    (mvsProps σ path props).lookupKey k = props.lookupKey k
  | .fnil => rfl
  | .fcons k' v t => by
      simp only [mvsProps, PyFields.lookupKey]
      by_cases h : k' = k
      · subst h
        simp [if_neg hk]
      · simp [h, lookupKey_mvsProps σ path k hk t]

theorem fileHashContrib_mvsInfo (σ : String → PyVal → PyVal) (path : String)
    (fi : PyVal) : fileHashContrib (mvsInfo σ path fi) = fileHashContrib fi := by
  cases fi with
  | pyDict props =>
      simp only [mvsInfo, fileHashContrib, pySubscript]
      rw [lookupKey_mvsProps σ path "hash" (by decide) props]
  | pyNone => rfl
  | pyInt n => rfl
  | pyStr s => rfl
  | pyList xs => rfl

theorem toList_mvsEntries_map (σ : String → PyVal → PyVal) (fs : PyFields) :
    (mvsEntries σ fs).toList.map (fun kv => (kv.1, fileHashContrib kv.2)) =
      fs.toList.map (fun kv => (kv.1, fileHashContrib kv.2)) :=
  match fs with
  | .fnil => rfl
  | .fcons path fi t => by
      simp only [mvsEntries, PyFields.toList, List.map]
      rw [fileHashContrib_mvsInfo, toList_mvsEntries_map σ t]

theorem filesContrib_mvsFiles (σ : String → PyVal → PyVal) (v : PyVal) :
    filesContrib (mvsFiles σ v) = filesContrib v := by
  cases v with
  | pyDict fs =>
      simp only [mvsFiles, filesContrib]
      rw [toList_mvsEntries_map]
  | pyNone => rfl
  | pyInt n => rfl
  | pyStr s => rfl
  | pyList xs => rfl

mutual
theorem addFilesToHash_mvs (σ : String → PyVal → PyVal) :
    ∀ v : PyVal, addFilesToHash (mvs σ v) = addFilesToHash v
  | .pyNone => rfl
  | .pyInt _ => rfl
  | .pyStr _ => rfl
  | .pyList _ => rfl
  | .pyDict fs => by
      simp only [mvs, addFilesToHash]
      rw [entryContribs_mvsFields σ fs]

theorem entryContribs_mvsFields (σ : String → PyVal → PyVal) :
    ∀ fs : PyFields, entryContribs (mvsFields σ fs) = entryContribs fs
  | .fnil => rfl
  | .fcons k v t => by
      simp only [mvsFields, entryContribs]
      rw [entryContribs_mvsFields σ t]
      by_cases h : k = "files"
      · simp [h, filesContrib_mvsFiles]
      · simp [h, addFilesToHash_mvs σ v]
end

theorem charToNat_inj {a b : Char} (h : a.toNat = b.toNat) : a = b := by
  rw [← Char.ofNat_toNat a, ← Char.ofNat_toNat b, h]

theorem strLtB_asymm : ∀ as bs : List Char,
    strLtB as bs = true → strLtB bs as = false
  | [], [] => by simp [strLtB]
  | [], _ :: _ => by simp [strLtB]
  | _ :: _, [] => by simp [strLtB]
  | a :: as, b :: bs => by
      by_cases h : a = b
      · subst h
        simpa [strLtB] using strLtB_asymm as bs
      · have h' : ¬ b = a := fun e => h e.symm
        simp only [strLtB, if_neg h, if_neg h', decide_eq_true_eq,
          decide_eq_false_iff_not]
        omega

theorem strLtB_total : ∀ as bs : List Char,
    as ≠ bs → strLtB as bs = true ∨ strLtB bs as = true
  | [], [] => fun h => absurd rfl h
  | [], _ :: _ => fun _ => Or.inl (by simp [strLtB])
  | _ :: _, [] => fun _ => Or.inr (by simp [strLtB])
  | a :: as, b :: bs => fun hne => by
      by_cases h : a = b
      · subst h
        have ht : as ≠ bs := fun e => hne (by rw [e])
        simpa [strLtB] using strLtB_total as bs ht
      · have h' : ¬ b = a := fun e => h e.symm
        have hn : a.toNat ≠ b.toNat := fun e => h (charToNat_inj e)
        simp only [strLtB, if_neg h, if_neg h', decide_eq_true_eq]
        omega

theorem strLtB_trans : ∀ as bs cs : List Char,
    strLtB as bs = true → strLtB bs cs = true → strLtB as cs = true
  | [], _, [] => fun _ h2 => by
      cases bs₀ : ‹List Char› <;> simp_all [strLtB]
  | [], _, _ :: _ => fun _ _ => by simp [strLtB]
  | _ :: _, [], _ => fun h1 _ => by simp [strLtB] at h1
  | _ :: _, _ :: _, [] => fun _ h2 => by simp [strLtB] at h2
  | a :: as, b :: bs, c :: cs => fun h1 h2 => by
      by_cases hab : a = b
      · subst hab
        by_cases hbc : a = c
        · subst hbc
          simp only [strLtB, if_pos rfl] at h1 h2 ⊢
          exact strLtB_trans as bs cs h1 h2
        · simpa [strLtB, hbc] using (by simpa [strLtB, hbc] using h2)
      · by_cases hbc : b = c
        · subst hbc
          simpa [strLtB, hab] using (by simpa [strLtB, hab] using h1)
        · have h1' : a.toNat < b.toNat := by
            simpa [strLtB, hab] using h1
          have h2' : b.toNat < c.toNat := by
            simpa [strLtB, hbc] using h2
          have hac : a ≠ c := fun e => by
            subst e
            omega
          simp only [strLtB, if_neg hac, decide_eq_true_eq]
          omega

theorem strLtB_le_lt_trans {x y z : List Char} (h1 : strLtB y x = false)
    (h2 : strLtB y z = true) : strLtB x z = true := by
  by_cases hxy : x = y
  · subst hxy
    exact h2
  · rcases strLtB_total x y hxy with h | h
    · exact strLtB_trans x y z h h2
    · rw [h] at h1
      cases h1

mutual
/-- Two values equal up to reordering dict entries, at any depth.  This is
the formal meaning of "permuting the enumeration (listing) order of files
and modules": Python dicts remember insertion order, so a different
`os.walk` / `os.listdir` order yields a `DictPerm`-related service tree. -/
inductive DictPerm : PyVal → PyVal → Prop where
  | atom : ∀ v : PyVal, (∀ fs : PyFields, v ≠ .pyDict fs) → DictPerm v v
  | dict : ∀ {fs₁ fs₂ : PyFields}, FieldsPerm fs₁ fs₂ →
      DictPerm (.pyDict fs₁) (.pyDict fs₂)

/-- Permutation of dict fields with `DictPerm`-related values, generated
like `List.Perm`. -/
inductive FieldsPerm : PyFields → PyFields → Prop where
  | nil : FieldsPerm .fnil .fnil
  | cons : ∀ (k : String) {v₁ v₂ : PyVal} {t₁ t₂ : PyFields},
      DictPerm v₁ v₂ → FieldsPerm t₁ t₂ →
      FieldsPerm (.fcons k v₁ t₁) (.fcons k v₂ t₂)
  | swap : ∀ (k₁ : String) (v₁ : PyVal) (k₂ : String) (v₂ : PyVal)
      (t : PyFields),
      FieldsPerm (.fcons k₁ v₁ (.fcons k₂ v₂ t)) (.fcons k₂ v₂ (.fcons k₁ v₁ t))
  | trans : ∀ {a b c : PyFields}, FieldsPerm a b → FieldsPerm b c →
      FieldsPerm a c
end

mutual
/-- Keys are pairwise distinct in this dict and in every nested dict —
true of every dict Python can hold, and in particular of every snapshot
the generator builds. -/
def PyVal.goodKeys : PyVal → Bool
  | .pyDict fs => fs.goodKeys
  | .pyList xs => xs.goodKeys
  | _ => true

/-- Distinct keys at this level, recursively good values. -/
def PyFields.goodKeys : PyFields → Bool
  | .fnil => true
  | .fcons k v t => !t.hasKey k && v.goodKeys && t.goodKeys

/-- Recursively good list elements. -/
def PyListV.goodKeys : PyListV → Bool
  | .nil => true
  | .cons v t => v.goodKeys && t.goodKeys
end

theorem hasKey_fcons (k : String) (v : PyVal) (t : PyFields) (key : String) :
    (PyFields.fcons k v t).hasKey key = (decide (k = key) || t.hasKey key) := by
  by_cases h : k = key <;> simp [PyFields.hasKey, PyFields.lookupKey, h]

mutual
theorem dictPermRefl : ∀ v : PyVal, DictPerm v v
  | .pyNone => .atom _ fun _ h => by cases h
  | .pyInt _ => .atom _ fun _ h => by cases h
  | .pyStr _ => .atom _ fun _ h => by cases h
  | .pyList _ => .atom _ fun _ h => by cases h
  | .pyDict fs => .dict (fieldsPermRefl fs)

theorem fieldsPermRefl : ∀ fs : PyFields, FieldsPerm fs fs
  | .fnil => .nil
  | .fcons k v t => .cons k (dictPermRefl v) (fieldsPermRefl t)
end

theorem dictPermTrans {a b c : PyVal} (h1 : DictPerm a b) (h2 : DictPerm b c) :
    DictPerm a c := by
  cases h1 with
  | atom v hv => exact h2
  | dict hf1 =>
      cases h2 with
      | atom v hv => exact absurd rfl (hv _)
      | dict hf2 => exact .dict (hf1.trans hf2)

theorem fieldsPerm_hasKey {fs₁ fs₂ : PyFields} (h : FieldsPerm fs₁ fs₂) :
    ∀ k, fs₁.hasKey k = fs₂.hasKey k := by
  refine @FieldsPerm.rec (fun _ _ _ => True)
    (fun fs₁ fs₂ _ => ∀ k, fs₁.hasKey k = fs₂.hasKey k)
    ?_ ?_ ?_ ?_ ?_ ?_ fs₁ fs₂ h
  · intro v hv
    trivial
  · intro fs₁ fs₂ hf ih
    trivial
  · intro k
    rfl
  · intro k' v₁ v₂ t₁ t₂ hv ht ihv iht k
    rw [hasKey_fcons, hasKey_fcons, iht k]
  · intro k₁ v₁ k₂ v₂ t k
    rw [hasKey_fcons, hasKey_fcons, hasKey_fcons, hasKey_fcons]
    by_cases h1 : k₁ = k <;> by_cases h2 : k₂ = k <;> simp [h1, h2]
  · intro a b c hab hbc ih1 ih2 k
    rw [ih1 k, ih2 k]

theorem keyInsert_comm {α : Type} (p q : String × α) (hpq : p.1.data ≠ q.1.data) :
    ∀ l : List (String × α), keyInsert p (keyInsert q l) = keyInsert q (keyInsert p l)
  | [] => by
      rcases strLtB_total p.1.data q.1.data hpq with hB | hA
      · simp [keyInsert, hB, strLtB_asymm _ _ hB]
      · simp [keyInsert, hA, strLtB_asymm _ _ hA]
  | r :: l => by
      by_cases hc1 : strLtB r.1.data q.1.data = true
      · by_cases hc2 : strLtB r.1.data p.1.data = true
        · simp [keyInsert, hc1, hc2, keyInsert_comm p q hpq l]
        · have hc2' : strLtB r.1.data p.1.data = false := by
            simpa using hc2
          have hpq' : strLtB p.1.data q.1.data = true :=
            strLtB_le_lt_trans hc2' hc1
          simp [keyInsert, hc1, hc2', hpq']
      · have hc1' : strLtB r.1.data q.1.data = false := by
          simpa using hc1
        by_cases hc2 : strLtB r.1.data p.1.data = true
        · have hqp : strLtB q.1.data p.1.data = true :=
            strLtB_le_lt_trans hc1' hc2
          simp [keyInsert, hc1', hc2, hqp]
        · have hc2' : strLtB r.1.data p.1.data = false := by
            simpa using hc2
          rcases strLtB_total p.1.data q.1.data hpq with hB | hA
          · simp [keyInsert, hc1', hc2', hB, strLtB_asymm _ _ hB]
          · simp [keyInsert, hc1', hc2', hA, strLtB_asymm _ _ hA]

/-- Relate optional lookup results pointwise. -/
inductive OptRel (R : PyVal → PyVal → Prop) : Option PyVal → Option PyVal → Prop where
  | none : OptRel R none none
  | some : ∀ {x y : PyVal}, R x y → OptRel R (some x) (some y)

theorem optRelRefl : ∀ o : Option PyVal, OptRel DictPerm o o
  | Option.none => .none
  | Option.some x => .some (dictPermRefl x)

theorem optRelTrans {o₁ o₂ o₃ : Option PyVal} (h1 : OptRel DictPerm o₁ o₂)
    (h2 : OptRel DictPerm o₂ o₃) : OptRel DictPerm o₁ o₃ := by
  cases h1 with
  | none => exact h2
  | some hxy =>
      cases h2 with
      | some hyz => exact .some (dictPermTrans hxy hyz)

theorem dictPerm_goodKeys {v₁ v₂ : PyVal} (h : DictPerm v₁ v₂)
    (good : v₁.goodKeys = true) : v₂.goodKeys = true := by
  refine @DictPerm.rec
    (fun v₁ v₂ _ => v₁.goodKeys = true → v₂.goodKeys = true)
    (fun fs₁ fs₂ _ => fs₁.goodKeys = true → fs₂.goodKeys = true)
    ?_ ?_ ?_ ?_ ?_ ?_ v₁ v₂ h good
  · intro v hv g
    exact g
  · intro fs₁ fs₂ hf ih g
    simp only [PyVal.goodKeys] at g ⊢
    exact ih g
  · intro g
    exact g
  · intro k v₁ v₂ t₁ t₂ hv ht ihv iht g
    simp only [PyFields.goodKeys, Bool.and_eq_true, Bool.not_eq_true'] at g ⊢
    exact ⟨⟨by rw [← fieldsPerm_hasKey ht k]; exact g.1.1, ihv g.1.2⟩, iht g.2⟩
  · intro k₁ v₁ k₂ v₂ t g
    simp only [PyFields.goodKeys, hasKey_fcons, Bool.and_eq_true,
      Bool.not_eq_true', Bool.or_eq_false_iff, decide_eq_false_iff_not] at g ⊢
    obtain ⟨⟨⟨hne, hk1⟩, gv1⟩, ⟨hk2, gv2⟩, gt⟩ := g
    exact ⟨⟨⟨fun e => hne e.symm, hk2⟩, gv2⟩, ⟨hk1, gv1⟩, gt⟩
  · intro a b c hab hbc ih1 ih2 g
    exact ih2 (ih1 g)

theorem fieldsPerm_goodKeys {fs₁ fs₂ : PyFields} (h : FieldsPerm fs₁ fs₂)
    (good : fs₁.goodKeys = true) : fs₂.goodKeys = true :=
  dictPerm_goodKeys (.dict h) (by simpa [PyVal.goodKeys] using good)

theorem fieldsPerm_lookup {fs₁ fs₂ : PyFields} (h : FieldsPerm fs₁ fs₂)
    (good : fs₁.goodKeys = true) :
    ∀ k, OptRel DictPerm (fs₁.lookupKey k) (fs₂.lookupKey k) := by
  refine @FieldsPerm.rec (fun _ _ _ => True)
    (fun fs₁ fs₂ _ => fs₁.goodKeys = true →
      ∀ k, OptRel DictPerm (fs₁.lookupKey k) (fs₂.lookupKey k))
    ?_ ?_ ?_ ?_ ?_ ?_ fs₁ fs₂ h good
  · intro v hv
    trivial
  · intro fs₁ fs₂ hf ih
    trivial
  · intro g k
    exact .none
  · intro k' v₁ v₂ t₁ t₂ hv ht ihv iht g k
    simp only [PyFields.goodKeys, Bool.and_eq_true] at g
    simp only [PyFields.lookupKey]
    by_cases hk : k' = k
    · simp only [if_pos hk]
      exact .some hv
    · simp only [if_neg hk]
      exact iht g.2 k
  · intro k₁ v₁ k₂ v₂ t g k
    simp only [PyFields.goodKeys, hasKey_fcons, Bool.and_eq_true,
      Bool.not_eq_true', Bool.or_eq_false_iff, decide_eq_false_iff_not] at g
    have hne : k₂ ≠ k₁ := g.1.1.1
    simp only [PyFields.lookupKey]
    by_cases h1 : k₁ = k
    · have h2 : ¬ k₂ = k := fun e => hne (e.trans h1.symm)
      simp only [if_pos h1, if_neg h2]
      exact optRelRefl _
    · by_cases h2 : k₂ = k
      · simp only [if_neg h1, if_pos h2]
        exact optRelRefl _
      · simp only [if_neg h1, if_neg h2]
        exact optRelRefl _
  · intro a b c hab hbc ih1 ih2 g k
    exact optRelTrans (ih1 g k) (ih2 (fieldsPerm_goodKeys hab g) k)

theorem fileHashContrib_perm {fi₁ fi₂ : PyVal} (h : DictPerm fi₁ fi₂)
    (good : fi₁.goodKeys = true) : fileHashContrib fi₁ = fileHashContrib fi₂ := by
  cases h with
  | atom v hv => rfl
  | @dict fs₁ fs₂ hf =>
      have hrel := fieldsPerm_lookup hf (by simpa [PyVal.goodKeys] using good) "hash"
      simp only [fileHashContrib, pySubscript]
      revert hrel
      cases h1 : fs₁.lookupKey "hash" <;> cases h2 : fs₂.lookupKey "hash" <;>
        intro hrel
      · rfl
      · cases hrel
      · cases hrel
      · cases hrel with
        | some hxy =>
            cases hxy with
            | atom x hx => rfl
            | dict hff => rfl

theorem fieldsPerm_sortContribs {α : Type} (φ : String → PyVal → α)
    (hφ : ∀ k (v₁ v₂ : PyVal), DictPerm v₁ v₂ → v₁.goodKeys = true →
      φ k v₁ = φ k v₂)
    {fs₁ fs₂ : PyFields} (h : FieldsPerm fs₁ fs₂) (good : fs₁.goodKeys = true) :
    sortByKey (fs₁.toList.map (fun kv => (kv.1, φ kv.1 kv.2))) =
      sortByKey (fs₂.toList.map (fun kv => (kv.1, φ kv.1 kv.2))) := by
  refine @FieldsPerm.rec (fun _ _ _ => True)
    (fun fs₁ fs₂ _ => fs₁.goodKeys = true →
      sortByKey (fs₁.toList.map (fun kv => (kv.1, φ kv.1 kv.2))) =
        sortByKey (fs₂.toList.map (fun kv => (kv.1, φ kv.1 kv.2))))
    ?_ ?_ ?_ ?_ ?_ ?_ fs₁ fs₂ h good
  · intro v hv
    trivial
  · intro fs₁ fs₂ hf ih
    trivial
  · intro g
    rfl
  · intro k' v₁ v₂ t₁ t₂ hv ht ihv iht g
    simp only [PyFields.goodKeys, Bool.and_eq_true] at g
    simp only [PyFields.toList, List.map, sortByKey]
    rw [hφ k' v₁ v₂ hv g.1.2, iht g.2]
  · intro k₁ v₁ k₂ v₂ t g
    simp only [PyFields.goodKeys, hasKey_fcons, Bool.and_eq_true,
      Bool.not_eq_true', Bool.or_eq_false_iff, decide_eq_false_iff_not] at g
    have hne : k₂ ≠ k₁ := g.1.1.1
    simp only [PyFields.toList, List.map, sortByKey]
    refine keyInsert_comm _ _ ?_ _
    exact fun e => hne (String.ext e.symm)
  · intro a b c hab hbc ih1 ih2 g
    exact (ih1 g).trans (ih2 (fieldsPerm_goodKeys hab g))

theorem filesContrib_perm {v₁ v₂ : PyVal} (h : DictPerm v₁ v₂)
    (good : v₁.goodKeys = true) : filesContrib v₁ = filesContrib v₂ := by
  cases h with
  | atom v hv => rfl
  | dict hf =>
      simp only [filesContrib]
      rw [fieldsPerm_sortContribs (fun _ v => fileHashContrib v)
        (fun _ x₁ x₂ hx gx => fileHashContrib_perm hx gx) hf
        (by simpa [PyVal.goodKeys] using good)]

theorem addFilesToHash_perm {v₁ v₂ : PyVal} (h : DictPerm v₁ v₂)
    (good : v₁.goodKeys = true) : addFilesToHash v₁ = addFilesToHash v₂ := by
  refine @DictPerm.rec
    (fun v₁ v₂ _ => v₁.goodKeys = true → addFilesToHash v₁ = addFilesToHash v₂)
    (fun fs₁ fs₂ _ => fs₁.goodKeys = true →
      sortByKey (entryContribs fs₁) = sortByKey (entryContribs fs₂))
    ?_ ?_ ?_ ?_ ?_ ?_ v₁ v₂ h good
  · intro v hv g
    rfl
  · intro fs₁ fs₂ hf ih g
    simp only [PyVal.goodKeys] at g
    simp only [addFilesToHash]
    rw [ih g]
  · intro g
    rfl
  · intro k' v₁ v₂ t₁ t₂ hv ht ihv iht g
    simp only [PyFields.goodKeys, Bool.and_eq_true] at g
    simp only [entryContribs, sortByKey]
    have hhead : (if k' = "files" then filesContrib v₁ else addFilesToHash v₁) =
        (if k' = "files" then filesContrib v₂ else addFilesToHash v₂) := by
      by_cases hk : k' = "files"
      · simp only [if_pos hk]
        exact filesContrib_perm hv g.1.2
      · simp only [if_neg hk]
        exact ihv g.1.2
    rw [hhead, iht g.2]
  · intro k₁ v₁ k₂ v₂ t g
    simp only [PyFields.goodKeys, hasKey_fcons, Bool.and_eq_true,
      Bool.not_eq_true', Bool.or_eq_false_iff, decide_eq_false_iff_not] at g
    have hne : k₂ ≠ k₁ := g.1.1.1
    simp only [entryContribs, sortByKey]
    refine keyInsert_comm _ _ ?_ _
    exact fun e => hne (String.ext e.symm)
  · intro a b c hab hbc ih1 ih2 g
    exact (ih1 g).trans (ih2 (fieldsPerm_goodKeys hab g))

theorem lookupKey_setKey_self : ∀ (fs : PyFields) (k : String) (v : PyVal),
    (fs.setKey k v).lookupKey k = some v
  | .fnil, k, v => by simp [PyFields.setKey, PyFields.lookupKey]
  | .fcons k' v' t, k, v => by
      simp only [PyFields.setKey]
      by_cases h : k' = k
      · simp [h, PyFields.lookupKey]
      · simp [PyFields.lookupKey, h, lookupKey_setKey_self t k v]

theorem lookupKey_setKey_other : ∀ (fs : PyFields) (k : String) (v : PyVal)
    (k' : String), k ≠ k' → (fs.setKey k v).lookupKey k' = fs.lookupKey k'
  | .fnil, k, v, k', h => by
      simp [PyFields.setKey, PyFields.lookupKey, h]
  | .fcons k0 v0 t, k, v, k', h => by
      simp only [PyFields.setKey]
      by_cases h0 : k0 = k
      · subst h0
        simp [PyFields.lookupKey, h, fun e => h e]
      · by_cases h1 : k0 = k' <;>
          simp [PyFields.lookupKey, h0, h1, Ne.symm h,
            lookupKey_setKey_other t k v k' h]

theorem hasKey_setKey_preserve (fs : PyFields) (k : String) (v : PyVal)
    (k' : String) (h : fs.hasKey k' = true) : (fs.setKey k v).hasKey k' = true := by
  by_cases e : k = k'
  · subst e
    simp [PyFields.hasKey, lookupKey_setKey_self]
  · simpa [PyFields.hasKey, lookupKey_setKey_other fs k v k' e] using h

/-- Every dict value satisfies `p`. -/
def allValues (p : PyVal → Bool) : PyFields → Bool
  | .fnil => true
  | .fcons _ v t => p v && allValues p t

theorem allValues_lookup (p : PyVal → Bool) : ∀ (fs : PyFields) (k : String)
    (v : PyVal), allValues p fs = true → fs.lookupKey k = some v → p v = true
  | .fnil, _, _, _, h => by cases h
  | .fcons k0 v0 t, k, v, hall, h => by
      simp only [allValues, Bool.and_eq_true] at hall
      simp only [PyFields.lookupKey] at h
      by_cases e : k0 = k
      · rw [if_pos e] at h
        cases h
        exact hall.1
      · rw [if_neg e] at h
        exact allValues_lookup p t k v hall.2 h

theorem allValues_setKey (p : PyVal → Bool) : ∀ (fs : PyFields) (k : String)
    (v : PyVal), allValues p fs = true → p v = true →
    allValues p (fs.setKey k v) = true
  | .fnil, k, v, _, hv => by simp [PyFields.setKey, allValues, hv]
  | .fcons k0 v0 t, k, v, hall, hv => by
      simp only [allValues, Bool.and_eq_true] at hall
      simp only [PyFields.setKey]
      by_cases e : k0 = k
      · simp [e, allValues, hv, hall.2]
      · simp [e, allValues, hall.1, allValues_setKey p t k v hall.2 hv]

theorem foldl_preserve {α β : Type} (P : α → Prop) (step : α → β → α)
    (hstep : ∀ a b, P a → P (step a b)) :
    ∀ (l : List β) (a : α), P a → P (l.foldl step a)
  | [], _, h => h
  | b :: l, a, h => foldl_preserve P step hstep l (step a b) (hstep a b h)

/-- A unit node as the generator stores it: exactly `{"files": fs}` with a
nonempty `fs` — in particular it carries no `"version"` or `"hash"` key. -/
def isUnitNode : PyVal → Bool
  | .pyDict (.fcons k (.pyDict fs) .fnil) => k == "files" && fs.hasAny
  | _ => false

/-- A `modules` / `standalone` group value: a nonempty dict all of whose
values are unit nodes. -/
def isGroupDict : PyVal → Bool
  | .pyDict ms => ms.hasAny && allValues isUnitNode ms
  | _ => false

theorem isUnitNode_unitNode (fs : PyFields) (h : fs.hasAny = true) :
    isUnitNode (unitNode fs) = true := by
  simp [isUnitNode, unitNode, h]

theorem buildUnits_allUnits (prev : PyVal) (today lang service : String)
    (subs : List SubDir) :
    allValues isUnitNode (buildUnits prev today lang service subs) = true := by
  refine foldl_preserve (fun a => allValues isUnitNode a = true)
    (buildUnitsStep prev today lang service) ?_ subs .fnil rfl
  intro acc u h
  unfold buildUnitsStep
  by_cases hd : u.isDir = true
  · simp only [hd, if_true]
    by_cases hf : (process_directory prev today lang service u.files).hasAny = true
    · simp only [hf, if_true]
      exact allValues_setKey _ _ _ _ h (isUnitNode_unitNode _ hf)
    · simp only [hf]
      simpa using h
  · simp only [hd]
    simpa using h

/-- The three group entries of a service dict are well-shaped: any
`common` is a unit node, any `modules`/`standalone` a group dict. -/
def groupsShaped (d : PyFields) : Bool :=
  (match d.lookupKey "common" with
   | some u => isUnitNode u
   | none => true) &&
  (match d.lookupKey "modules" with
   | some g => isGroupDict g
   | none => true) &&
  (match d.lookupKey "standalone" with
   | some g => isGroupDict g
   | none => true)

theorem groupsShaped_fnil : groupsShaped .fnil = true := rfl

theorem groupsShaped_set_modules (d : PyFields) (g : PyVal)
    (hd : groupsShaped d = true) (hg : isGroupDict g = true) :
    groupsShaped (d.setKey "modules" g) = true := by
  unfold groupsShaped at hd ⊢
  rw [lookupKey_setKey_self, lookupKey_setKey_other d _ _ "common" (by decide),
    lookupKey_setKey_other d _ _ "standalone" (by decide)]
  simp only [Bool.and_eq_true] at hd ⊢
  exact ⟨⟨hd.1.1, hg⟩, hd.2⟩

theorem groupsShaped_set_standalone (d : PyFields) (g : PyVal)
    (hd : groupsShaped d = true) (hg : isGroupDict g = true) :
    groupsShaped (d.setKey "standalone" g) = true := by
  unfold groupsShaped at hd ⊢
  rw [lookupKey_setKey_self, lookupKey_setKey_other d _ _ "common" (by decide),
    lookupKey_setKey_other d _ _ "modules" (by decide)]
  simp only [Bool.and_eq_true] at hd ⊢
  exact ⟨⟨hd.1.1, hd.1.2⟩, hg⟩

theorem groupsShaped_common_only (fs : PyFields) (h : fs.hasAny = true) :
    groupsShaped (PyFields.fnil.setKey "common" (unitNode fs)) = true := by
  unfold groupsShaped
  simp [PyFields.setKey, PyFields.lookupKey, isUnitNode_unitNode fs h]

theorem serviceUnits_groupsShaped (prev : PyVal) (today lang service : String)
    (dirs : ServiceDirs) :
    groupsShaped (serviceUnits prev today lang service dirs) = true := by
  obtain ⟨c, m, st⟩ := dirs
  unfold serviceUnits
  simp only
  have h1 : groupsShaped (match c with
      | some cfs =>
          let fs := process_directory prev today lang service cfs
          if fs.hasAny then PyFields.fnil.setKey "common" (unitNode fs)
          else .fnil
      | none => .fnil) = true := by
    cases c with
    | none => exact groupsShaped_fnil
    | some cfs =>
        simp only
        by_cases hf : (process_directory prev today lang service cfs).hasAny = true
        · simp only [hf, if_true]
          exact groupsShaped_common_only _ hf
        · simp only [hf, if_false]
          exact groupsShaped_fnil
  have h2 : ∀ (d : PyFields), groupsShaped d = true →
      groupsShaped (match m with
        | some subs =>
            let ms := buildUnits prev today lang service subs
            if ms.hasAny then d.setKey "modules" (.pyDict ms) else d
        | none => d) = true := by
    intro d hd
    cases m with
    | none => exact hd
    | some subs =>
        simp only
        by_cases hm : (buildUnits prev today lang service subs).hasAny = true
        · simp only [hm, if_true]
          refine groupsShaped_set_modules d _ hd ?_
          simp [isGroupDict, hm, buildUnits_allUnits]
        · simp only [hm, if_false]
          exact hd
  have h3 : ∀ (d : PyFields), groupsShaped d = true →
      groupsShaped (if service == "website" then
        match st with
        | some subs =>
            let ss := buildUnits prev today lang service subs
            if ss.hasAny then d.setKey "standalone" (.pyDict ss) else d
        | none => d
      else d) = true := by
    intro d hd
    by_cases hw : (service == "website") = true
    · simp only [hw, if_true]
      cases st with
      | none => exact hd
      | some subs =>
          simp only
          by_cases hs : (buildUnits prev today lang service subs).hasAny = true
          · simp only [hs, if_true]
            refine groupsShaped_set_standalone d _ hd ?_
            simp [isGroupDict, hs, buildUnits_allUnits]
          · simp only [hs, if_false]
            exact hd
    · simp only [hw, if_false]
      exact hd
  exact h3 _ (h2 _ h1)

theorem groupsShaped_after_stamp (d3 : PyFields) (s ver : String)
    (h : groupsShaped d3 = true) :
    groupsShaped ((d3.setKey "hash" (.pyStr s)).setKey "version" (.pyStr ver)) =
      true := by
  unfold groupsShaped at h ⊢
  rw [lookupKey_setKey_other _ _ _ "common" (by decide),
    lookupKey_setKey_other _ _ _ "modules" (by decide),
    lookupKey_setKey_other _ _ _ "standalone" (by decide),
    lookupKey_setKey_other _ _ _ "common" (by decide),
    lookupKey_setKey_other _ _ _ "modules" (by decide),
    lookupKey_setKey_other _ _ _ "standalone" (by decide)]
  exact h

/-- Dissection of a successful, truthy `_process_service` result: it is a
dict carrying a string `"hash"` and a string `"version"`, and whose
`common` / `modules` / `standalone` entries, when present, are unit nodes
or group dicts — nothing else. -/
theorem process_service_ok_shape (H : List Char → String) (prev : PyVal)
    (today lang service : String) (dirs : ServiceDirs) (d : PyFields)
    (h : process_service H prev today lang service (some dirs) =
      .ok (.pyDict d))
    (hne : d.hasAny = true) :
    (∃ s, d.lookupKey "hash" = some (.pyStr s)) ∧
    (∃ s, d.lookupKey "version" = some (.pyStr s)) ∧
    groupsShaped d = true := by
  unfold process_service at h
  simp only at h
  by_cases h3 : (serviceUnits prev today lang service dirs).hasAny = true
  · rw [if_pos h3] at h
    cases hch : calculate_service_hash H (.pyDict (serviceUnits prev today lang
      service dirs)) with
    | error e => rw [hch] at h; exact Except.noConfusion h
    | ok service_hash =>
        simp only [hch] at h
        cases hpi : (if prev.truthy then do
            let a ← pyGetD prev "languages" (.pyDict .fnil)
            let b ← pyGetD a lang (.pyDict .fnil)
            pyGetD b service (.pyDict .fnil)
          else .ok (.pyDict .fnil) : Except PyErr PyVal) with
        | error e => rw [hpi] at h; exact Except.noConfusion h
        | ok pinfo =>
            simp only [hpi] at h
            cases hpg : pyGet pinfo "version" with
            | error e => rw [hpg] at h; exact Except.noConfusion h
            | ok pver =>
                simp only [hpg] at h
                cases hgv : generate_file_version_py today service_hash pver with
                | error e => rw [hgv] at h; exact Except.noConfusion h
                | ok ver =>
                    simp only [hgv, Except.ok.injEq, PyVal.pyDict.injEq] at h
                    subst h
                    refine ⟨⟨service_hash, ?_⟩, ⟨ver, ?_⟩, ?_⟩
                    · rw [lookupKey_setKey_other _ _ _ "hash" (by decide),
                        lookupKey_setKey_self]
                    · rw [lookupKey_setKey_self]
                    · exact groupsShaped_after_stamp _ _ _
                        (serviceUnits_groupsShaped prev today lang service dirs)
  · rw [if_neg h3] at h
    simp only [Except.ok.injEq, PyVal.pyDict.injEq] at h
    subst h
    exact absurd hne h3

/-- A dict value's truthiness is its nonemptiness. -/
theorem truthy_pyDict (d : PyFields) : (PyVal.pyDict d).truthy = d.hasAny := by
  cases d <;> rfl

/-- Weak dissection of a successful `_process_service` on an existing
directory: the result is a dict, and when that dict is nonempty its group
entries are well-shaped. -/
theorem process_service_ok_form (H : List Char → String) (prev : PyVal)
    (today lang service : String) (dirs : ServiceDirs) (v : PyVal)
    (h : process_service H prev today lang service (some dirs) = .ok v) :
    ∃ d : PyFields, v = .pyDict d ∧ (d.hasAny = true → groupsShaped d = true) := by
  unfold process_service at h
  simp only at h
  by_cases h3 : (serviceUnits prev today lang service dirs).hasAny = true
  · rw [if_pos h3] at h
    cases hch : calculate_service_hash H (.pyDict (serviceUnits prev today lang
      service dirs)) with
    | error e => rw [hch] at h; exact Except.noConfusion h
    | ok service_hash =>
        simp only [hch] at h
        cases hpi : (if prev.truthy then do
            let a ← pyGetD prev "languages" (.pyDict .fnil)
            let b ← pyGetD a lang (.pyDict .fnil)
            pyGetD b service (.pyDict .fnil)
          else .ok (.pyDict .fnil) : Except PyErr PyVal) with
        | error e => rw [hpi] at h; exact Except.noConfusion h
        | ok pinfo =>
            simp only [hpi] at h
            cases hpg : pyGet pinfo "version" with
            | error e => rw [hpg] at h; exact Except.noConfusion h
            | ok pver =>
                simp only [hpg] at h
                cases hgv : generate_file_version_py today service_hash pver with
                | error e => rw [hgv] at h; exact Except.noConfusion h
                | ok ver =>
                    simp only [hgv, Except.ok.injEq] at h
                    refine ⟨_, h.symm, fun _ => ?_⟩
                    exact groupsShaped_after_stamp _ _ _
                      (serviceUnits_groupsShaped prev today lang service dirs)
  · rw [if_neg h3] at h
    simp only [Except.ok.injEq] at h
    refine ⟨_, h.symm, fun hh => absurd hh h3⟩

/-- A service entry as recorded in a language dict: truthy, and a dict
with well-shaped groups. -/
def goodServiceEntry (v : PyVal) : Bool :=
  v.truthy &&
    (match v with
     | .pyDict d => groupsShaped d
     | _ => false)

theorem serviceFields_good (H : List Char → String) (prev : PyVal)
    (today : String) (ld : LangDir) :
    allValues goodServiceEntry (serviceFields H prev today ld) = true := by
  refine foldl_preserve (fun a => allValues goodServiceEntry a = true)
    (serviceStep H prev today ld.lname) ?_ _ .fnil rfl
  intro acc sv hacc
  unfold serviceStep
  cases hps : process_service H prev today ld.lname sv.1 sv.2 with
  | error e => exact hacc
  | ok v =>
      by_cases ht : v.truthy = true
      · simp only [ht, if_true]
        refine allValues_setKey _ _ _ _ hacc ?_
        cases hsd : sv.2 with
        | none =>
            rw [hsd] at hps
            unfold process_service at hps
            simp only [Except.ok.injEq] at hps
            rw [← hps] at ht
            exact absurd ht (by simp [PyVal.truthy])
        | some dirs =>
            rw [hsd] at hps
            obtain ⟨d, rfl, hgs⟩ := process_service_ok_form H prev today
              ld.lname sv.1 dirs v hps
            rw [truthy_pyDict] at ht
            simp [goodServiceEntry, truthy_pyDict, ht, hgs ht]
      · simp only [ht, if_false]
        exact hacc

/-- A language entry as recorded under `languages`: a dict of good
service entries. -/
def langEntryGood : PyVal → Bool
  | .pyDict sf => allValues goodServiceEntry sf
  | _ => false

/-- Extract the `languages` dict of a snapshot. -/
def snapshotLanguages : PyVal → PyFields
  | .pyDict fs =>
      match fs.lookupKey "languages" with
      | some (.pyDict l) => l
      | _ => .fnil
  | _ => .fnil

theorem snapshotLanguages_generate (H : List Char → String)
    (genStamp today : String) (prev : PyVal) (entries : List LangDir) :
    snapshotLanguages (generate_versions H genStamp today prev (some entries)) =
      (entries.foldl (langStep H prev today) (.fnil, .nil)).1 := by
  unfold generate_versions snapshotLanguages
  simp [PyFields.lookupKey]

theorem languages_allGood (H : List Char → String) (prev : PyVal)
    (today : String) (entries : List LangDir) :
    allValues langEntryGood
      ((entries.foldl (langStep H prev today) (.fnil, .nil)).1) = true := by
  refine foldl_preserve
    (fun (a : PyFields × PyListV) => allValues langEntryGood a.1 = true)
    (langStep H prev today) ?_ entries (.fnil, .nil) rfl
  intro a ld ha
  unfold langStep
  by_cases hd : ld.isDir = true
  · simp only [hd, if_true]
    refine allValues_setKey _ _ _ _ ha ?_
    simp [langEntryGood, serviceFields_good]
  · simp only [hd, if_false]
    exact ha

theorem languages_hasKey (H : List Char → String) (prev : PyVal)
    (today : String) : ∀ (entries : List LangDir) (acc : PyFields × PyListV)
    (ld : LangDir), ld ∈ entries → ld.isDir = true →
    ((entries.foldl (langStep H prev today) acc).1).hasKey ld.lname = true
  | [], _, ld, h, _ => absurd h (List.not_mem_nil ld)
  | e :: entries, acc, ld, h, hdir => by
      rcases List.mem_cons.mp h with rfl | hmem
      · have h1 : ((langStep H prev today acc ld).1).hasKey ld.lname = true := by
          unfold langStep
          simp only [hdir, if_true]
          simp [PyFields.hasKey, lookupKey_setKey_self]
        refine foldl_preserve
          (fun (a : PyFields × PyListV) => a.1.hasKey ld.lname = true)
          (langStep H prev today) ?_ entries _ h1
        intro a l2 ha
        unfold langStep
        by_cases hd2 : l2.isDir = true
        · simp only [hd2, if_true]
          exact hasKey_setKey_preserve _ _ _ _ ha
        · simp only [hd2, if_false]
          exact ha
      · exact languages_hasKey H prev today entries (langStep H prev today acc e)
          ld hmem hdir

theorem getLastD_irrel {α : Type} : ∀ (l : List α), l ≠ [] → ∀ d₁ d₂ : α,
    l.getLastD d₁ = l.getLastD d₂
  | [], h, _, _ => absurd rfl h
  | [_], _, _, _ => rfl
  | x :: y :: l, _, d₁, d₂ => by
      simp only [List.getLastD_cons]

theorem splitChar_ne_nil (sep : Char) : ∀ cs : List Char, splitChar sep cs ≠ []
  | [] => by simp [splitChar]
  | c :: cs => by
      simp only [splitChar]
      cases h : splitChar sep cs with
      | nil => simp
      | cons r rs => by_cases e : c = sep <;> simp [e]

theorem splitChar_of_not_mem (sep : Char) : ∀ cs : List Char, sep ∉ cs →
    splitChar sep cs = [cs]
  | [], _ => rfl
  | c :: cs, h => by
      have hc : ¬ c = sep := fun e => h (by simp [e])
      have hcs : sep ∉ cs := fun m => h (List.mem_cons_of_mem c m)
      simp [splitChar, splitChar_of_not_mem sep cs hcs, hc]

theorem splitChar_of_mem (sep : Char) : ∀ cs : List Char, sep ∈ cs →
    ∃ r rs, splitChar sep cs = r :: rs ∧ rs ≠ []
  | [], h => absurd h (List.not_mem_nil sep)
  | c :: cs, h => by
      by_cases e : c = sep
      · cases hs : splitChar sep cs with
        | nil => exact absurd hs (splitChar_ne_nil sep cs)
        | cons r rs =>
            refine ⟨[], r :: rs, ?_, by simp⟩
            simp [splitChar, hs, e]
      · have hcs : sep ∈ cs := by
          rcases List.mem_cons.mp h with h1 | h1
          · exact absurd h1.symm e
          · exact h1
        obtain ⟨r, rs, hs, hrs⟩ := splitChar_of_mem sep cs hcs
        exact ⟨c :: r, rs, by simp [splitChar, hs, e], hrs⟩

theorem takeWhile_append_stop {α : Type} (p : α → Bool) :
    ∀ (l₁ l₂ : List α), (∃ x ∈ l₁, p x = false) →
    (l₁ ++ l₂).takeWhile p = l₁.takeWhile p
  | [], _, h => by
      rcases h with ⟨x, hx, _⟩
      cases hx
  | a :: l₁, l₂, h => by
      by_cases ha : p a = true
      · rcases h with ⟨x, hx, hpx⟩
        rcases List.mem_cons.mp hx with rfl | hx'
        · rw [ha] at hpx
          cases hpx
        · simp only [List.cons_append, List.takeWhile_cons, ha, if_true]
          rw [takeWhile_append_stop p l₁ l₂ ⟨x, hx', hpx⟩]
      · have ha' : p a = false := by simpa using ha
        simp [List.takeWhile_cons, ha']

theorem takeWhile_append_all {α : Type} (p : α → Bool) :
    ∀ (l₁ l₂ : List α), (∀ x ∈ l₁, p x = true) →
    (l₁ ++ l₂).takeWhile p = l₁ ++ l₂.takeWhile p
  | [], _, _ => rfl
  | a :: l₁, l₂, h => by
      have ha := h a (List.mem_cons_self a l₁)
      simp only [List.cons_append, List.takeWhile_cons, ha, if_true]
      rw [takeWhile_append_all p l₁ l₂ (fun x hx => h x (List.mem_cons_of_mem a hx))]

/-- Python `s.split(sep)[-1]` is the run of characters after the last
separator (the whole string when no separator occurs). -/
theorem splitChar_getLastD (sep : Char) : ∀ cs : List Char,
    (splitChar sep cs).getLastD [] =
      (cs.reverse.takeWhile (fun x => x != sep)).reverse
  | [] => rfl
  | c :: cs => by
      have hrev : (c :: cs).reverse = cs.reverse ++ [c] := List.reverse_cons c cs
      by_cases hm : sep ∈ cs
      · have hex : ∃ x ∈ cs.reverse, (x != sep) = false :=
          ⟨sep, by simp [hm], by simp⟩
        rw [hrev, takeWhile_append_stop _ _ _ hex, ← splitChar_getLastD sep cs]
        obtain ⟨r, rs, hs, hrs⟩ := splitChar_of_mem sep cs hm
        by_cases e : c = sep
        · simp [splitChar, hs, e, List.getLastD_cons]
        · simp only [splitChar, hs]
          rw [if_neg e, List.getLastD_cons, List.getLastD_cons]
          exact getLastD_irrel rs hrs _ _
      · have hall : ∀ x ∈ cs.reverse, (x != sep) = true := by
          intro x hx
          have hxc : x ∈ cs := List.mem_reverse.mp hx
          have hxs : ¬ x = sep := fun e => hm (e ▸ hxc)
          simp [hxs]
        have hs := splitChar_of_not_mem sep cs hm
        rw [hrev, takeWhile_append_all _ _ _ hall]
        by_cases e : c = sep
        · simp [splitChar, hs, e, List.getLastD_cons]
        · simp [splitChar, hs, e, List.getLastD_cons]

/-- The version-continuity decision as the amended claim words it: reuse
`previousIdentifier` exactly when it is present, nonempty, and the part of
it after its **last** separator (all of it, when it contains no separator
at all) equals the eight-character digest head; otherwise mint
`<epoch-marker>.<digest-head>`. -/
def versionPolicySpec (today d : String) (p : Option String) : String :=
  match p with
  | none => String.mk (today.data ++ '.' :: d.data.take 8)
  | some pv =>
      if pv.data ≠ [] ∧
          (pv.data.reverse.takeWhile (fun x => x != '.')).reverse = d.data.take 8
      then pv
      else String.mk (today.data ++ '.' :: d.data.take 8)

/-- Membership tests raise only `TypeError`. -/
theorem pyContains_error (v : PyVal) (k : String) (e : PyErr)
    (h : pyContains v k = .error e) : e = .typeError := by
  cases v <;> simp [pyContains] at h <;> try exact h.symm

/-- True exactly when a lookup outcome is not one of the exception classes
`_get_previous_file_info` catches (`KeyError` / `AttributeError`). -/
def survivesCatch : Except PyErr PyVal → Bool
  | .error .keyError => false
  | .error .attributeError => false
  | _ => true

/-- Resolve `previous_versions["languages"][lang][service]` (§4.2's
taxonomy root for a lookup). -/
def resolveServiceNode (prev : PyVal) (lang service : String) :
    Except PyErr PyVal :=
  exBind (pySubscript prev "languages") fun a =>
  exBind (pySubscript a lang) fun b =>
  pySubscript b service

/-- Look a path up in one unit's `files` table. -/
def lookupInUnitFiles (u : PyVal) (file_path : String) : Except PyErr PyVal :=
  exBind (pySubscript u "files") fun fs =>
  pyGet fs file_path

/-- The grouping-kind resolution exactly as the spec words it, in the
fixed precedence order: a path containing a `common` segment consults only
the `common` group's files; otherwise a `modules` segment resolves via the
module named immediately after it; otherwise a `standalone` segment (only
when the service is `website`) resolves via the standalone name after it;
otherwise nothing is found. -/
def lookupGroupSpec (versions : PyVal) (service file_path : String) :
    Except PyErr PyVal :=
  let parts := pySplit '/' file_path
  if parts.contains "common" then
    exBind (pySubscript versions "common") fun c =>
    lookupInUnitFiles c file_path
  else if parts.contains "modules" then
    exBindS (segmentAfter parts "modules") fun n =>
    exBind (pySubscript versions "modules") fun m =>
    exBind (pySubscript m n) fun mu =>
    lookupInUnitFiles mu file_path
  else if parts.contains "standalone" && service == "website" then
    exBindS (segmentAfter parts "standalone") fun n =>
    exBind (pySubscript versions "standalone") fun st =>
    exBind (pySubscript st n) fun su =>
    lookupInUnitFiles su file_path
  else
    .ok .pyNone

theorem vFold (V : FileCheck) : ∀ (l : List String) (acc : VReport),
    l.foldl (vStep V) acc =
      ⟨acc.has_errors || l.any (fun f => !(V f).1),
       acc.resultFiles ++ l.map (fun f => (f, (V f).1)),
       acc.total,
       acc.passed + (l.filter (fun f => (V f).1)).length,
       acc.failed + (l.filter (fun f => !(V f).1)).length,
       acc.skippedCount⟩
  | [], acc => by simp
  | f :: l, acc => by
      by_cases hv : (V f).1 = true
      · simp only [List.foldl_cons, vStep, hv, if_true]
        rw [vFold V l]
        simp [hv, List.filter_cons, List.any_cons]
        omega
      · have hv' : (V f).1 = false := by simpa using hv
        simp only [List.foldl_cons, vStep, hv', Bool.false_eq_true, if_false]
        rw [vFold V l]
        simp [hv', List.filter_cons, List.any_cons]
        omega

theorem filter_length_split {α : Type} (p : α → Bool) : ∀ l : List α,
    (l.filter p).length + (l.filter (fun x => !(p x))).length = l.length
  | [] => rfl
  | a :: l => by
      have ih := filter_length_split p l
      by_cases h : p a = true <;> simp [List.filter_cons, h] <;> omega

theorem any_true_iff_filter_pos {α : Type} (p : α → Bool) (l : List α) :
    l.any p = true ↔ 1 ≤ (l.filter p).length := by
  rw [List.any_eq_true]
  constructor
  · rintro ⟨x, hx, hp⟩
    have hm : x ∈ l.filter p := List.mem_filter.mpr ⟨hx, hp⟩
    exact List.length_pos.mpr (List.ne_nil_of_mem hm)
  · intro h
    have hne : l.filter p ≠ [] := by
      intro e
      rw [e] at h
      simp at h
    obtain ⟨x, hx⟩ := List.exists_mem_of_ne_nil _ hne
    have hm := List.mem_filter.mp hx
    exact ⟨x, hm.1, hm.2⟩

theorem strInsert_length (s : String) : ∀ l : List String,
    (strInsert s l).length = l.length + 1
  | [] => rfl
  | q :: qs => by
      by_cases h : strLtB q.data s.data = true <;>
        simp [strInsert, h, strInsert_length s qs]

theorem sortStrs_length : ∀ l : List String, (sortStrs l).length = l.length
  | [] => rfl
  | s :: l => by simp [sortStrs, strInsert_length, sortStrs_length l]

/-- A concrete stand-in for the SHA-256 hex-digest function, used only to
evaluate the pipeline on closed inputs; every universally quantified
theorem above holds for it in particular. -/
def Hid : List Char → String := fun l => String.mk l

/-- One content file `common/a.json` with content digest
`deadbeefcafebabe`, as `process_directory` sees it. -/
def demoFile : SrcFile := ⟨"a.json", "/a.json", "deadbeefcafebabe"⟩

/-- A `website` service directory holding only that file under `common`. -/
def demoDirs : ServiceDirs := ⟨some [demoFile], none, none⟩

/-- A `languages` tree with the single language `en`. -/
def demoRoot : List LangDir := [⟨"en", true, some demoDirs, none⟩]

/-- First run: no previous snapshot, date 2025-01-01. -/
def run1 : PyVal := generate_versions Hid "g1" "20250101" .pyNone (some demoRoot)

/-- Second run over the identical tree (zero content changes), consuming
the first run's snapshot, date 2025-01-02. -/
def run2 : PyVal := generate_versions Hid "g2" "20250102" run1 (some demoRoot)

/-- The service dict the first run stores for `en`/`website`. -/
def demoD : PyFields :=
  .fcons "common" (.pyDict (.fcons "files" (.pyDict (.fcons "/a.json"
      (.pyDict (.fcons "version" (.pyStr "20250101.deadbeef")
        (.fcons "hash" (.pyStr "deadbeefcafebabe") .fnil))) .fnil)) .fnil))
    (.fcons "hash" (.pyStr "deadbeefcafebabe")
      (.fcons "version" (.pyStr "20250101.deadbeef") .fnil))

/-- C1: the continuity property fails on the code.  Re-running the
generator over a byte-identical tree one day later re-mints the file's
identifier with the new epoch-marker: the stored file keys are
unit-relative (`"/a.json"`), so `_get_previous_file_info` — which searches
the path's segments for `common`/`modules`/`standalone` — never finds the
previous entry and `generate_file_version` falls through to minting.  The
content digest is unchanged between the runs, yet the file identifier
differs, contradicting the claim (and spec §8's continuity test). -/
theorem claim1_continuity_code_bug :
    pyGetPath run1 ["languages", "en", "website", "common", "files",
      "/a.json", "hash"] = some (.pyStr "deadbeefcafebabe") ∧
    pyGetPath run2 ["languages", "en", "website", "common", "files",
      "/a.json", "hash"] = some (.pyStr "deadbeefcafebabe") ∧
    pyGetPath run1 ["languages", "en", "website", "common", "files",
      "/a.json", "version"] = some (.pyStr "20250101.deadbeef") ∧
    pyGetPath run2 ["languages", "en", "website", "common", "files",
      "/a.json", "version"] = some (.pyStr "20250102.deadbeef") ∧
    (("20250102.deadbeef" : String) == "20250101.deadbeef") = false :=
  ⟨rfl, rfl, rfl, rfl, rfl⟩

/-- C2 counterexample: the claim requires a well-formed previous
identifier (one containing a separator) for reuse, but the code reuses
`"abcdef12"` — which contains no `'.'` at all — because
`"abcdef12".split('.')[-1]` is the whole string and equals the digest's
first eight characters.  The claim says this input must yield the freshly
minted `"20260101.abcdef12"`; it does not. -/
theorem claim2_counterexample :
    generate_file_version "20260101" "abcdef1234" (some "abcdef12") =
      "abcdef12" ∧
    infixOfB ['.'] "abcdef12".data = false ∧
    (("abcdef12" : String) ==
      String.mk ("20260101".data ++ '.' :: "abcdef1234".data.take 8)) = false :=
  ⟨rfl, rfl, rfl⟩

/-- C2 amended: the decision reuses the previous identifier exactly when
it is present, nonempty, and the text after its **last** separator — the
whole identifier when it has no separator — equals the eight-character
digest head; in every other case it mints
`<epoch-marker>.<digest-head>`.  Well-formedness (containing a separator)
is not required. -/
theorem claim2_amended_policy (today d : String) (p : Option String) :
    generate_file_version today d p = versionPolicySpec today d p := by
  cases p with
  | none => rfl
  | some pv =>
      unfold generate_file_version versionPolicySpec
      simp only [splitChar_getLastD]
      by_cases he : pv.data = []
      · simp [he]
      · by_cases hc : (pv.data.reverse.takeWhile (fun x => x != '.')).reverse =
            d.data.take 8
        · simp [he, hc]
        · simp [he, hc]

/-- C3: the service aggregate digest is invariant under (a) permuting the
dict entry order at every depth — the trace of a different on-disk
enumeration order — provided keys are distinct as Python dicts guarantee,
and (b) arbitrary rewriting of the `"version"` strings of file records,
because `add_files_to_hash` folds in only the `"hash"` digests of sorted
`files` tables. -/
theorem claim3_service_hash_invariance (H : List Char → String) :
    (∀ v₁ v₂ : PyVal, DictPerm v₁ v₂ → v₁.goodKeys = true →
      calculate_service_hash H v₁ = calculate_service_hash H v₂) ∧
    (∀ (σ : String → PyVal → PyVal) (v : PyVal),
      calculate_service_hash H (mvs σ v) = calculate_service_hash H v) := by
  constructor
  · intro v₁ v₂ h g
    unfold calculate_service_hash
    rw [addFilesToHash_perm h g]
  · intro σ v
    unfold calculate_service_hash
    rw [addFilesToHash_mvs σ v]

/-- A file record pair used by the C3 witness. -/
def w3fa : PyVal :=
  .pyDict (.fcons "version" (.pyStr "v1") (.fcons "hash" (.pyStr "h1hash") .fnil))

/-- Second file record for the C3 witness. -/
def w3fb : PyVal :=
  .pyDict (.fcons "version" (.pyStr "v2") (.fcons "hash" (.pyStr "h2hash") .fnil))

/-- A two-file service tree. -/
def w3a : PyVal :=
  .pyDict (.fcons "common" (.pyDict (.fcons "files"
    (.pyDict (.fcons "/a.json" w3fa (.fcons "/b.json" w3fb .fnil))) .fnil)) .fnil)

/-- The same tree with the two files enumerated in the opposite order. -/
def w3b : PyVal :=
  .pyDict (.fcons "common" (.pyDict (.fcons "files"
    (.pyDict (.fcons "/b.json" w3fb (.fcons "/a.json" w3fa .fnil))) .fnil)) .fnil)

/-- A version rewrite used by the C3 witness. -/
def w3sigma : String → PyVal → PyVal := fun _ _ => .pyStr "rewritten"

theorem w3perm : DictPerm w3a w3b :=
  .dict (.cons "common" (.dict (.cons "files"
    (.dict (.swap "/a.json" w3fa "/b.json" w3fb .fnil)) .nil)) .nil)

theorem claim3_witness :
    calculate_service_hash Hid w3a = calculate_service_hash Hid w3b ∧
    calculate_service_hash Hid (mvs w3sigma w3a) =
      calculate_service_hash Hid w3a :=
  ⟨(claim3_service_hash_invariance Hid).1 w3a w3b w3perm (by decide),
   (claim3_service_hash_invariance Hid).2 w3sigma w3a⟩

/-- C4 counterexample: `save_versions` opens `versions.json` itself with
mode `'w'` — truncating it — and streams into it; replaying only the
first action of its trace (a crash right after the open) leaves an empty
file where the previous snapshot `"OLD"` used to be, refuting
write-temp-then-rename atomicity. -/
theorem claim4_counterexample :
    runFsOps (some ['O', 'L', 'D']) ((save_versions_ops ['N', 'E', 'W']).take 1) =
      some [] ∧
    ((some [] : Option (List Char)) == some ['O', 'L', 'D']) = false :=
  ⟨rfl, rfl⟩

theorem runFsOps_writes : ∀ (ser acc : List Char),
    runFsOps (some acc) (ser.map (fun c => FsOp.writeChunk [c])) =
      some (acc ++ ser)
  | [], acc => by simp [runFsOps]
  | c :: cs, acc => by
      simp only [List.map_cons, runFsOps, Option.getD_some]
      rw [runFsOps_writes cs (acc ++ [c])]
      simp

/-- C4 amended: the write is **not** atomic.  `save_versions` truncates
`versions.json` in place and then streams the serialized text into it: a
completed run replaces the content, but a run interrupted after `k` write
chunks leaves a partial file holding only the first `k` characters (in
particular, the empty file for `k = 0`), destroying the previous
snapshot. -/
theorem claim4_amended_inplace_write (prevC ser : List Char) :
    runFsOps (some prevC) (save_versions_ops ser) = some ser ∧
    ∀ k : Nat, runFsOps (some prevC) ((save_versions_ops ser).take (k + 1)) =
      some (ser.take k) := by
  constructor
  · unfold save_versions_ops
    simp only [runFsOps]
    rw [runFsOps_writes]
    simp
  · intro k
    unfold save_versions_ops
    simp only [List.take_succ_cons, runFsOps]
    rw [← List.map_take, runFsOps_writes]
    simp

/-- C5 counterexample: the unit node the code stores for `common` is
exactly `{"files": ...}` — it carries **no** unit-level aggregate digest
and no unit-level identifier, while the claim says every unit node does.
The per-file identifier and the service-level `hash`/`version` are there;
the unit-level ones are not. -/
theorem claim5_counterexample :
    process_service Hid .pyNone "20250101" "en" "website" (some demoDirs) =
      .ok (.pyDict demoD) ∧
    (pyGetPath (.pyDict demoD) ["common", "version"]).isNone = true ∧
    (pyGetPath (.pyDict demoD) ["common", "hash"]).isNone = true ∧
    (pyGetPath (.pyDict demoD) ["common", "files", "/a.json", "version"]).isSome =
      true ∧
    (pyGetPath (.pyDict demoD) ["version"]).isSome = true ∧
    (pyGetPath (.pyDict demoD) ["hash"]).isSome = true :=
  ⟨rfl, rfl, rfl, rfl, rfl, rfl⟩

/-- C5 amended: for every unit directory in which at least one content
file is found, the resulting unit node carries **only** its (nonempty)
`files` mapping — no unit-level aggregate digest and no unit-level
identifier exist.  The aggregate digest and the continuity-policy
identifier are computed once per **service**, stored as the dict's
`"hash"` and `"version"` strings; `groupsShaped` pins every recorded
`common` node to `isUnitNode` (exactly `{"files": <nonempty>}`) and every
`modules`/`standalone` entry to a dict of such nodes. -/
theorem claim5_amended_unit_nodes (H : List Char → String) (prev : PyVal)
    (today lang service : String) (dirs : ServiceDirs) (d : PyFields)
    (h : process_service H prev today lang service (some dirs) =
      .ok (.pyDict d))
    (hne : d.hasAny = true) :
    (∃ s, d.lookupKey "hash" = some (.pyStr s)) ∧
    (∃ s, d.lookupKey "version" = some (.pyStr s)) ∧
    groupsShaped d = true :=
  process_service_ok_shape H prev today lang service dirs d h hne

theorem claim5_witness :
    (∃ s, demoD.lookupKey "hash" = some (.pyStr s)) ∧
    (∃ s, demoD.lookupKey "version" = some (.pyStr s)) ∧
    groupsShaped demoD = true :=
  claim5_amended_unit_nodes Hid .pyNone "20250101" "en" "website" demoDirs demoD
    rfl rfl

/-- The snapshot produced for a language directory containing no service
content at all. -/
def emptyLangOut : PyVal :=
  generate_versions Hid "g" "20250101" .pyNone (some [⟨"en", true, none, none⟩])

/-- C6 counterexample: a language directory under which **zero** content
files are discovered still contributes to the snapshot — the key `"en"`
is present in `languages` (bound to an empty dict) and `"en"` is appended
to `meta.supportedLanguages`, while the claim says such a language is
omitted entirely. -/
theorem claim6_counterexample :
    pyGetPath emptyLangOut ["languages", "en"] = some (.pyDict .fnil) ∧
    pyGetPath emptyLangOut ["meta", "supportedLanguages"] =
      some (.pyList (.cons (.pyStr "en") .nil)) :=
  ⟨rfl, rfl⟩

/-- C6 amended: a **unit** or **service** with zero discovered content
files is omitted from the snapshot (no key is recorded for it), but a
**language** directory is always recorded — both under `languages`
(possibly as an empty dict) and in `supportedLanguages` — even with zero
content files.  Concretely: every directory entry of the language root
appears as a key of `languages`, and every service entry that does appear
is truthy (nonempty) with well-shaped nonempty groups. -/
theorem claim6_amended_omission (H : List Char → String)
    (genStamp today : String) (prev : PyVal) (entries : List LangDir) :
    (∀ ld ∈ entries, ld.isDir = true →
      (snapshotLanguages (generate_versions H genStamp today prev
        (some entries))).hasKey ld.lname = true) ∧
    (∀ (lname : String) (lv : PyVal),
      (snapshotLanguages (generate_versions H genStamp today prev
        (some entries))).lookupKey lname = some lv →
      langEntryGood lv = true) := by
  rw [snapshotLanguages_generate]
  constructor
  · intro ld hmem hdir
    exact languages_hasKey H prev today entries (.fnil, .nil) ld hmem hdir
  · intro lname lv h
    exact allValues_lookup _ _ _ _ (languages_allGood H prev today entries) h

theorem claim6_witness :
    (snapshotLanguages (generate_versions Hid "g" "20250101" .pyNone
      (some [⟨"en", true, none, none⟩]))).hasKey "en" = true ∧
    langEntryGood (.pyDict .fnil) = true :=
  ⟨(claim6_amended_omission Hid "g" "20250101" .pyNone
      [⟨"en", true, none, none⟩]).1 ⟨"en", true, none, none⟩
      (List.mem_singleton.mpr rfl) rfl,
   (claim6_amended_omission Hid "g" "20250101" .pyNone
      [⟨"en", true, none, none⟩]).2 "en" (.pyDict .fnil) rfl⟩

/-- C7 counterexample: the lookup is **not** total over malformed
snapshots.  With `{"languages": {"en": 7}}` as the previous data, the
subscript `7["website"]` raises `TypeError`, which the
`except (KeyError, AttributeError)` clause does not catch, so the call
raises instead of answering "not found". -/
theorem claim7_counterexample :
    get_previous_file_info
      (.pyDict (.fcons "languages"
        (.pyDict (.fcons "en" (.pyInt 7) .fnil)) .fnil))
      "en" "website" "/common/a.json" = .error .typeError :=
  rfl

/-- C7 amended: missing intermediate keys and missing `get` methods never
escape — every `KeyError` / `AttributeError` is caught and turned into
"not found" — but a wrongly-shaped intermediate value (one that is not a
dict where the code subscripts, or a too-short path after a grouping
segment) raises an uncaught `TypeError` / `IndexError`.  Formally: the
result is never an uncaught `KeyError` or `AttributeError`. -/
theorem claim7_amended_caught_errors (prev : PyVal)
    (lang service file_path : String) :
    survivesCatch (get_previous_file_info prev lang service file_path) = true := by
  unfold get_previous_file_info
  split
  · rfl
  · cases hc : pyContains prev "languages" with
    | error e =>
        have := pyContains_error prev "languages" e hc
        subst this
        rfl
    | ok b =>
        cases b with
        | false => rfl
        | true =>
            cases hb : previousLookupTry prev lang service file_path with
            | ok v => rfl
            | error e => cases e <;> rfl

/-- C8: the previous-entry lookup resolves grouping kinds in the fixed
precedence order `common`, then `modules`, then `standalone` (the latter
consulted only for the `website` service), as `lookupGroupSpec` — built
from per-group resolvers that each touch only their own group — states:
after resolving `languages[lang][service]`, the lookup body coincides
with the spec-ordered dispatch. -/
theorem claim8_lookup_precedence (prev : PyVal)
    (lang service file_path : String) :
    previousLookupTry prev lang service file_path =
      match resolveServiceNode prev lang service with
      | .error e => .error e
      | .ok versions => lookupGroupSpec versions service file_path := by
  unfold previousLookupTry resolveServiceNode lookupGroupSpec lookupInUnitFiles
  cases h1 : pySubscript prev "languages" with
  | error e => simp [exBind]
  | ok a =>
      simp only [exBind]
      cases h2 : pySubscript a lang with
      | error e => simp [exBind]
      | ok b =>
          simp only [exBind]

/-- C9: when the `languages` root directory does not exist,
`generate_versions` returns, without error, the base snapshot: an empty
`languages` mapping and a `meta` with an empty `supportedLanguages` list,
`defaultLanguage` `"en"`, and the fixed services list
`["website", "launcher"]`. -/
theorem claim9_missing_root (H : List Char → String) (genStamp today : String)
    (prev : PyVal) :
    generate_versions H genStamp today prev none =
      .pyDict (.fcons "generated" (.pyStr genStamp)
        (.fcons "languages" (.pyDict .fnil)
          (.fcons "meta" (.pyDict
            (.fcons "supportedLanguages" (.pyList .nil)
              (.fcons "defaultLanguage" (.pyStr "en")
                (.fcons "services" (.pyList (.cons (.pyStr "website")
                  (.cons (.pyStr "launcher") .nil))) .fnil)))) .fnil))) := rfl

/-- A validation outcome that passes every file, used by the C10
counterexample (the outcome is irrelevant: the file never reaches it). -/
def V0 : FileCheck := fun _ => (true, [])

/-- C10 counterexample: the parallel validator filters non-`.json` names
out before validating, so the listed file `"notes.txt"` is counted in
**neither** `passed` nor `failed` (only in `skipped`), refuting "every
listed file appears in exactly one of the passed or failed counts". -/
theorem claim10_counterexample :
    dedupNonempty ["notes.txt"] = ["notes.txt"] ∧
    (validate_files_par V0 ["notes.txt"]).passed = 0 ∧
    (validate_files_par V0 ["notes.txt"]).failed = 0 ∧
    (validate_files_par V0 ["notes.txt"]).skippedCount = 1 :=
  ⟨rfl, rfl, rfl, rfl⟩

/-- C10 amended: in both validators `summary.passed + summary.failed =
summary.total` and `has_errors` holds exactly when at least one file
failed; the counted files are the deduplicated nonempty inputs — all of
them for the sequential validator, exactly the `.json`-suffixed ones for
the parallel validator (the rest only in `skipped`) — each appearing
exactly once, in sorted order, in the results. -/
theorem claim10_amended_invariants (V : FileCheck) (files : List String) :
    ((validate_files_seq V files).passed + (validate_files_seq V files).failed =
        (validate_files_seq V files).total ∧
      ((validate_files_seq V files).has_errors = true ↔
        1 ≤ (validate_files_seq V files).failed) ∧
      (validate_files_seq V files).total = (dedupNonempty files).length ∧
      (validate_files_seq V files).resultFiles.map Prod.fst =
        sortStrs (dedupNonempty files)) ∧
    ((validate_files_par V files).passed + (validate_files_par V files).failed =
        (validate_files_par V files).total ∧
      ((validate_files_par V files).has_errors = true ↔
        1 ≤ (validate_files_par V files).failed) ∧
      (validate_files_par V files).total =
        ((dedupNonempty files).filter isJsonName).length ∧
      (validate_files_par V files).skippedCount =
        (dedupNonempty files).length -
          ((dedupNonempty files).filter isJsonName).length ∧
      (validate_files_par V files).resultFiles.map Prod.fst =
        sortStrs ((dedupNonempty files).filter isJsonName)) := by
  constructor
  · unfold validate_files_seq
    by_cases he : (dedupNonempty files).isEmpty = true
    · have hnil : dedupNonempty files = [] := by
        cases h : dedupNonempty files with
        | nil => rfl
        | cons a l => rw [h] at he; simp [List.isEmpty] at he
      simp [he, hnil, sortStrs]
    · simp only [he, Bool.false_eq_true, if_false, vFold]
      refine ⟨?_, ?_, trivial, ?_⟩
      · simp only [Nat.zero_add]
        rw [filter_length_split, sortStrs_length]
      · simp only [Bool.false_or]
        rw [any_true_iff_filter_pos]
        omega
      · have hcomp : (Prod.fst ∘ fun f : String => (f, (V f).1)) = fun f => f :=
          funext fun f => rfl
        simp only [List.nil_append, List.map_map]
        rw [hcomp]
        simp
  · unfold validate_files_par
    by_cases he : (dedupNonempty files).isEmpty = true
    · have hnil : dedupNonempty files = [] := by
        cases h : dedupNonempty files with
        | nil => rfl
        | cons a l => rw [h] at he; simp [List.isEmpty] at he
      simp [he, hnil, sortStrs]
    · simp only [he, Bool.false_eq_true, if_false, vFold]
      refine ⟨?_, ?_, trivial, trivial, ?_⟩
      · simp only [Nat.zero_add]
        rw [filter_length_split, sortStrs_length]
      · simp only [Bool.false_or]
        rw [any_true_iff_filter_pos]
        omega
      · have hcomp : (Prod.fst ∘ fun f : String => (f, (V f).1)) = fun f => f :=
          funext fun f => rfl
        simp only [List.nil_append, List.map_map]
        rw [hcomp]
        simp
